import Mathlib

/-
Verification of the pydpkg library (TheClimateCorporation/python-dpkg).

The Python source in `pydpkg/__init__.py` is shallowly embedded here.
Python strings are modelled as `List Char`; the character classifiers
(`str.isdigit`, `str.isalpha`, `str.lower`, `str.strip`, `int(...)`)
are modelled with their Python semantics on the ASCII range, which is
the range Debian version strings and header names inhabit.
Fallible Python code (raising `DpkgVersionError`, `IndexError`, the
`Dsc` validation errors) is modelled with `Except`.
External collaborators (the filesystem and the hashlib digests used by
the `Dsc` class) are passed in as explicit data/function parameters.
-/

deriving instance DecidableEq for Except

namespace Pydpkg

abbrev Str := List Char

/-- Characters accepted by Python `str.isdigit` in the ASCII range. -/
def pyIsDigit (c : Char) : Bool :=
  '0' ≤ c && c ≤ '9'

/-- Characters accepted by Python `str.isalpha` in the ASCII range. -/
def pyIsAlpha (c : Char) : Bool :=
  ('a' ≤ c && c ≤ 'z') || ('A' ≤ c && c ≤ 'Z')

/-- Characters stripped by Python `str.strip()` / accepted around an
`int()` literal, in the ASCII range. -/
def pyIsSpace (c : Char) : Bool :=
  c = ' ' || c = '\t' || c = '\n' || c = '\r' || c = '\x0b' || c = '\x0c'

/-- Python `str.lower` on a single ASCII character. -/
def pyLowerChar (c : Char) : Char :=
  if 'A' ≤ c && c ≤ 'Z' then Char.ofNat (c.toNat + 32) else c

/-- Python `str.lower` in the ASCII range. -/
def pyLower (s : Str) : Str :=
  s.map pyLowerChar

/-- Python `str.strip()`: drop whitespace from both ends. -/
def pyStrip (s : Str) : Str :=
  ((s.dropWhile pyIsSpace).reverse.dropWhile pyIsSpace).reverse

/-- Numeric value of a string of ASCII decimal digits (value of
Python `int` on such a string; `0` on the empty string). -/
def decimalOfDigits (s : Str) : Nat :=
  s.foldl (fun acc c => acc * 10 + (c.toNat - '0'.toNat)) 0

/-- Grammar of the digit part of a Python integer literal: a nonempty
run of decimal digits in which single underscores may appear between
digits (Python 3.6+ `int("1_0") = 10`). -/
def pyDigitsU : Str → Bool
  | [] => false
  | [c] => pyIsDigit c
  | c :: d :: rest =>
    if !pyIsDigit c then false
    else if d = '_' then pyDigitsU rest
    else pyDigitsU (d :: rest)

/-- Python `int(s)` on a string: strip surrounding whitespace, allow one
optional sign, then a digit run with optional single underscores between
digits.  Returns `none` where Python raises `ValueError`.  (Non-ASCII
digit characters, which CPython would also accept, are outside the
ASCII model's scope.) -/
def pyint (s : Str) : Option Int :=
  match pyStrip s with
  | '+' :: rest =>
    if pyDigitsU rest then some (decimalOfDigits (rest.filter (· ≠ '_'))) else none
  | '-' :: rest =>
    if pyDigitsU rest then some (-(decimalOfDigits (rest.filter (· ≠ '_')) : Int)) else none
  | rest =>
    if pyDigitsU rest then some (decimalOfDigits (rest.filter (· ≠ '_'))) else none

/-- Decimal digit character for a value below ten. -/
def digitChar (d : Nat) : Char :=
  Char.ofNat ('0'.toNat + d)

/-- Fuel-bounded decimal rendering helper. -/
def natDigitsAux : Nat → Nat → Str
  | 0, _ => []
  | fuel + 1, n =>
    if n < 10 then [digitChar n]
    else natDigitsAux fuel (n / 10) ++ [digitChar (n % 10)]

/-- Decimal rendering of a natural number, as Python `str(n)` / the
`format` builtin render a non-negative `int`. -/
def natToChars (n : Nat) : Str :=
  natDigitsAux (n + 1) n

/-- Python `s.split(sep)` for a single-character separator: split at
every occurrence, keeping empty parts (always one more part than there
are separators). -/
def splitOnChar (sep : Char) : Str → List Str
  | [] => [[]]
  | c :: rest =>
    if c = sep then [] :: splitOnChar sep rest
    else
      match splitOnChar sep rest with
      | [] => [[c]]
      | p :: ps => (c :: p) :: ps

end Pydpkg

namespace Pydpkg

/-! Dpkg version comparison: the static methods of the `Dpkg` class. -/

/-- Dpkg.get_epoch: parse the epoch out of a package version string.
`version_str.index(':')` finds the first colon; no colon means epoch 0;
a prefix `int()` cannot parse raises `DpkgVersionError` (the `.error`
case). -/
def get_epoch (v : Str) : Except Unit (Int × Str) :=
  match v.findIdx? (· = ':') with
  | none => .ok (0, v)
  | some i =>
    match pyint (v.take i) with
    | none => .error ()
    | some e => .ok (e, v.drop (i + 1))

/-- Dpkg.get_upstream: split at the last hyphen (`rindex`); no hyphen
means debian revision `"0"`. -/
def get_upstream (v : Str) : Str × Str :=
  match v.reverse.findIdx? (· = '-') with
  | none => (v, ['0'])
  | some j =>
    let i := v.length - 1 - j
    (v.take i, v.drop (i + 1))

/-- Dpkg.split_full_version: epoch, upstream version, debian revision. -/
def split_full_version (v : Str) : Except Unit (Int × Str × Str) :=
  match get_epoch v with
  | .error e => .error e
  | .ok (epoch, full) =>
    let (upstream, debian) := get_upstream full
    .ok (epoch, upstream, debian)

/-- Dpkg.get_alphas: the leading run of non-digit characters and the
remainder. -/
def get_alphas (s : Str) : Str × Str :=
  (s.takeWhile (fun c => !pyIsDigit c), s.dropWhile (fun c => !pyIsDigit c))

/-- Dpkg.get_digits: the value of the leading run of digit characters
(0 when the run is empty) and the remainder. -/
def get_digits (s : Str) : Nat × Str :=
  (decimalOfDigits (s.takeWhile pyIsDigit), s.dropWhile pyIsDigit)

/-- A token of Dpkg.listify: Python alternates `str` and `int` values
in one list. -/
inductive Token where
  | str : Str → Token
  | num : Nat → Token
deriving DecidableEq

/-- Fuel-bounded body of Dpkg.listify; the fuel only bounds the number
of loop iterations (each iteration consumes at least one character, so
`s.length` fuel always suffices). -/
def listifyF : Nat → Str → List Token
  | _, [] => []
  | 0, _ :: _ => []
  | fuel + 1, c :: rest =>
    Token.str (get_alphas (c :: rest)).1 ::
      Token.num (get_digits (get_alphas (c :: rest)).2).1 ::
        listifyF fuel (get_digits (get_alphas (c :: rest)).2).2

/-- Dpkg.listify: while the string is nonempty, peel the leading alpha
run (Dpkg.get_alphas) and then the leading digit run (Dpkg.get_digits),
appending both tokens. -/
def listify (s : Str) : List Token :=
  listifyF s.length s

/-- Dpkg.dstringcmp: the Debian lexical comparison of two version
string segments.  The four match arms are the four exits of the Python
code: both exhausted (`a == b` over the walked prefix), `a` exhausted
(the fall-through after the loop, inspecting `b[len(a)]`), `b`
exhausted (the `IndexError` handler, inspecting the current char of
`a`), and the per-character comparison inside the loop. -/
def dstringcmp : Str → Str → Int
  | [], [] => 0
  | [], b :: _ => if b = '~' then 1 else -1
  | a :: _, [] => if a = '~' then -1 else 1
  | a :: as, b :: bs =>
    if a = b then dstringcmp as bs
    else if a = '~' then -1
    else if b = '~' then 1
    else if pyIsAlpha a && !pyIsAlpha b then -1
    else if !pyIsAlpha a && pyIsAlpha b then 1
    else if b.toNat < a.toNat then 1
    else if a.toNat < b.toNat then -1
    else dstringcmp as bs

/-- The element-wise loop of Dpkg.compare_revision_strings over the two
token lists.  Exhausting `list1` first returns -1 (the fall-through),
indexing past the end of `list2` returns 1 (the `IndexError` handler),
and a type mismatch between paired tokens is the
`DpkgVersionError` raise (the `.error` case). -/
def cmpTokenLists : List Token → List Token → Except Unit Int
  | [], _ => .ok (-1)
  | _ :: _, [] => .ok 1
  | Token.str s1 :: t1, Token.str s2 :: t2 =>
    if s1 = s2 then cmpTokenLists t1 t2 else .ok (dstringcmp s1 s2)
  | Token.num n1 :: t1, Token.num n2 :: t2 =>
    if n1 = n2 then cmpTokenLists t1 t2
    else if n2 < n1 then .ok 1
    else .ok (-1)
  | Token.str _ :: _, Token.num _ :: _ => .error ()
  | Token.num _ :: _, Token.str _ :: _ => .error ()

/-- Dpkg.compare_revision_strings. -/
def compare_revision_strings (rev1 rev2 : Str) : Except Unit Int :=
  if rev1 = rev2 then .ok 0
  else
    let list1 := listify rev1
    let list2 := listify rev2
    if list1 = list2 then .ok 0
    else cmpTokenLists list1 list2

/-- Stable insertion of one element into a sorted list, the building
block of the comparator-driven sort below. -/
def insertSorted (le : Str → Str → Bool) (x : Str) : List Str → List Str
  | [] => [x]
  | y :: ys => if le x y then x :: y :: ys else y :: insertSorted le x ys

/-- Stable sort by a boolean "less or equal" relation, modelling Python
`sorted(..., key=cmp_to_key(cmp))` for a comparator that is a total
preorder (as `sorted` is stable, any correct sort gives the same
result there). -/
def sortBy (le : Str → Str → Bool) (l : List Str) : List Str :=
  l.foldr (insertSorted le) []

/-- Dpkg.compare_versions. -/
def compare_versions (ver1 ver2 : Str) : Except Unit Int :=
  if ver1 = ver2 then .ok 0
  else
    match split_full_version ver1 with
    | .error e => .error e
    | .ok (epoch1, upstream1, debian1) =>
      match split_full_version ver2 with
      | .error e => .error e
      | .ok (epoch2, upstream2, debian2) =>
        if epoch1 < epoch2 then .ok (-1)
        else if epoch2 < epoch1 then .ok 1
        else
          match compare_revision_strings upstream1 upstream2 with
          | .error e => .error e
          | .ok upstr_res =>
            if upstr_res ≠ 0 then .ok upstr_res
            else
              match compare_revision_strings debian1 debian2 with
              | .error e => .error e
              | .ok debian_res =>
                if debian_res ≠ 0 then .ok debian_res
                else .ok 0

/-! The required-header check of Dpkg._process_dpkg_file (the only
place the `ignore_missing` constructor flag is consulted in the whole
source file). -/

/-- The module-level REQUIRED_HEADERS tuple. -/
def REQUIRED_HEADERS : List Str :=
  ["package".data, "version".data, "architecture".data]

/-- The `for req in REQUIRED_HEADERS` loop of Dpkg._process_dpkg_file:
a required header absent from the lowercased message keys either raises
DpkgMissingRequiredHeaderError naming it (the `.error` case) or, when
`ignore_missing` is set, is only logged and skipped. -/
def checkRequiredLoop (ignore_missing : Bool) (keys : List Str) :
    List Str → Except Str Unit
  | [] => .ok ()
  | req :: rest =>
    if req ∈ keys.map pyLower then checkRequiredLoop ignore_missing keys rest
    else if ignore_missing then checkRequiredLoop ignore_missing keys rest
    else .error req

/-- The required-header validation performed on the parsed control
message of a package, given the list of its header names. -/
def check_required_headers (ignore_missing : Bool) (keys : List Str) :
    Except Str Unit :=
  checkRequiredLoop ignore_missing keys REQUIRED_HEADERS

end Pydpkg

namespace Pydpkg

/-! The Dsc class.  Its filesystem-dependent derived data is embedded
as explicit values: a source-file record is the `(pathname, size,
isfile)` triple built by Dsc._process_source_files, and the digest
collaborator (hashlib) is a function parameter. -/

/-- One record of Dsc._process_source_files: resolved pathname,
declared size, and the result of `os.path.isfile` on the pathname. -/
abbrev SourceRecord := Str × Int × Bool

/-- Dsc.all_files_present: `all([x[2] for x in self._source_files])`. -/
def all_files_present (source_files : List SourceRecord) : Bool :=
  source_files.all (fun x => x.2.2)

/-- Dsc.missing_files:
`[x[0] for x in self._source_files if x[2] is False]`. -/
def missing_files (source_files : List SourceRecord) : List Str :=
  (source_files.filter (fun x => x.2.2 = false)).map (fun x => x.1)

/-- The state a Dsc instance validates against: the memoized source
file records, the asserted checksum table flattened to (hashtype,
pathname, digest) triples, and the digest collaborator giving the
recomputed hex digest of a file under a hash type. -/
structure DscState where
  sourceFiles : List SourceRecord
  checksums : List (Str × Str × Str)
  actualDigest : Str → Str → Str

/-- The errors Dsc.validate raises: DscMissingFileError carrying the
missing pathnames, DscBadChecksumsError carrying the correction
table. -/
inductive DscValidateError where
  | missingFiles : List Str → DscValidateError
  | badChecksums : List (Str × Str × Str) → DscValidateError
deriving DecidableEq

/-- Dsc._validate_checksums: recompute each asserted digest and keep
an entry with the recomputed digest exactly where it disagrees. -/
def validate_checksums (d : DscState) : List (Str × Str × Str) :=
  d.checksums.filterMap (fun e =>
    if d.actualDigest e.1 e.2.1 ≠ e.2.2 then
      some (e.1, e.2.1, d.actualDigest e.1 e.2.1)
    else none)

/-- Dsc.all_checksums_correct: `not self.corrected_checksums` (an empty
correction table is falsy). -/
def all_checksums_correct (d : DscState) : Bool :=
  validate_checksums d = []

/-- Dsc.validate: raise DscMissingFileError on any absent file, else
raise DscBadChecksumsError on any digest mismatch, else return. -/
def validate (d : DscState) : Except DscValidateError Unit :=
  if !all_files_present d.sourceFiles then
    .error (.missingFiles
      ((d.sourceFiles.filter (fun x => !x.2.2)).map (fun x => x.1)))
  else if !all_checksums_correct d then
    .error (.badChecksums (validate_checksums d))
  else .ok ()

/-! Dsc._internalize_message. -/

/-- The hash-type dispatch shared by Dsc._internalize_message and
Dsc._process_checksums: a key whose lowercasing starts with
"checksums" uses the (lowercased) text between its first and second
hyphens, `key.split(sep)[1]` raising IndexError when there is no
hyphen (the inner `.error`); the key "files" means md5; any other key
is skipped (`none`). -/
def keyHashtype (k : Str) : Option (Except Unit Str) :=
  if List.isPrefixOf "checksums".data (pyLower k) then
    some (match (splitOnChar '-' k).get? 1 with
      | some t => .ok (pyLower t)
      | none => .error ())
  else if pyLower k = "files".data then some (.ok "md5".data)
  else none

/-- Fields of one file-list line: `line.strip().split(' ')`. -/
def lineFields (line : Str) : List Str :=
  splitOnChar ' ' (pyStrip line)

/-- The filenames listed in a Files/Checksums-* header value: for each
nonempty line, field index 2 of the stripped, space-split line
(`[x[2] for x in found]`, IndexError when a line has fewer than three
fields). -/
def filesOf (v : Str) : Except Unit (List Str) :=
  ((splitOnChar '\n' v).filter (fun l => l ≠ [])).mapM (fun line =>
    match (lineFields line).get? 2 with
    | some f => Except.ok f
    | none => Except.error ())

/-- The synthesized record Dsc._internalize_message appends:
`'\n {digest} {size} {base}'` with the freshly computed digest of the
dsc file itself under hash type `t`, its measured size, and its
basename. -/
def selfLine (digestOf : Str → Str) (size : Nat) (base : Str) (t : Str) : Str :=
  '\n' :: ' ' :: (digestOf t ++ ' ' :: natToChars size ++ ' ' :: base)

/-- The body of Dsc._internalize_message for a single header: headers
that are not file lists pass through; a file list already naming the
document's basename passes through; otherwise the header value grows by
the synthesized self record. -/
def internalizeEntry (base : Str) (size : Nat) (digestOf : Str → Str)
    (kv : Str × Str) : Except Unit (Str × Str) :=
  match keyHashtype kv.1 with
  | none => .ok kv
  | some (.error e) => .error e
  | some (.ok t) =>
    match filesOf kv.2 with
    | .error e => .error e
    | .ok fs =>
      if base ∈ fs then .ok kv
      else .ok (kv.1, kv.2 ++ selfLine digestOf size base t)

/-- Dsc._internalize_message: rewrite every Files/Checksums-* header of
the message in place (`msg.replace_header`), leaving other headers and
the header order untouched. -/
def internalize_message (base : Str) (size : Nat) (digestOf : Str → Str) :
    List (Str × Str) → Except Unit (List (Str × Str))
  | [] => .ok []
  | kv :: rest =>
    match internalizeEntry base size digestOf kv with
    | .error e => .error e
    | .ok kv' =>
      match internalize_message base size digestOf rest with
      | .error e => .error e
      | .ok rest' => .ok (kv' :: rest')

end Pydpkg

namespace Pydpkg

/-! Claim-side auxiliary definitions.  `claimRenderTokens` transcribes
the reading of claim C3 (alpha tokens verbatim, digit tokens rendered
back to decimal text); the piece-level tokenizer records, for each
iteration of Dpkg.listify, the exact substrings the two tokens were
peeled from, so the true round-trip invariant can be stated. -/

/-- Rendering described by claim C3: emit each alpha token verbatim and
each digit token as decimal text, concatenated in order. -/
def claimRenderTokens (ts : List Token) : Str :=
  (ts.map (fun t =>
    match t with
    | Token.str s => s
    | Token.num n => natToChars n)).flatten

/-- Fuel-bounded companion of `listifyF` that keeps, for every loop
iteration of Dpkg.listify, the pair of original substrings peeled by
get_alphas and get_digits. -/
def listifyPiecesF : Nat → Str → List (Str × Str)
  | _, [] => []
  | 0, _ :: _ => []
  | fuel + 1, c :: rest =>
    ((get_alphas (c :: rest)).1,
      ((get_alphas (c :: rest)).2).takeWhile pyIsDigit) ::
      listifyPiecesF fuel ((get_digits (get_alphas (c :: rest)).2).2)

/-- The original substrings each token of Dpkg.listify was peeled
from, in order. -/
def listifyPieces (s : Str) : List (Str × Str) :=
  listifyPiecesF s.length s

/-- Concatenation of the peeled substrings, in order. -/
def piecesJoin (l : List (Str × Str)) : Str :=
  (l.map (fun p => p.1 ++ p.2)).flatten

/-- The tokens Dpkg.listify builds from the peeled substrings: the
alpha substring verbatim, the digit substring by its numeric value. -/
def piecesTokens (l : List (Str × Str)) : List Token :=
  l.foldr (fun p acc =>
    Token.str p.1 :: Token.num (decimalOfDigits p.2) :: acc) []

/-- The shape invariant of Dpkg.listify's output: tokens strictly
alternate between a string and a number, starting with a string. -/
inductive AltTokens : List Token → Prop where
  | nil : AltTokens []
  | cons : ∀ s n rest, AltTokens rest →
      AltTokens (Token.str s :: Token.num n :: rest)

/-- Pointwise constructor alignment of two token lists up to the length
of the shorter one. -/
inductive TokAligned : List Token → List Token → Prop where
  | nilL : ∀ l, TokAligned [] l
  | nilR : ∀ l, TokAligned l []
  | strs : ∀ s1 s2 t1 t2, TokAligned t1 t2 →
      TokAligned (Token.str s1 :: t1) (Token.str s2 :: t2)
  | nums : ∀ n1 n2 t1 t2, TokAligned t1 t2 →
      TokAligned (Token.num n1 :: t1) (Token.num n2 :: t2)

end Pydpkg

namespace Pydpkg

/-! Supporting lemmas. -/

theorem dropWhile_length_le (p : Char → Bool) :
    ∀ l : Str, (l.dropWhile p).length ≤ l.length := by
  intro l
  induction l with
  | nil => simp
  | cons c t ih =>
    by_cases h : p c
    · simp [List.dropWhile_cons, h]
      omega
    · simp [List.dropWhile_cons, h]

theorem peel_length_lt (c : Char) (rest : Str) :
    ((get_digits (get_alphas (c :: rest)).2).2).length < (c :: rest).length := by
  simp only [get_alphas, get_digits]
  by_cases h : pyIsDigit c
  · simp only [List.dropWhile_cons, h, Bool.not_true, Bool.false_eq_true,
      if_false, if_true]
    have := dropWhile_length_le pyIsDigit rest
    simp only [List.length_cons]
    omega
  · have h' : pyIsDigit c = false := by simpa using h
    simp only [List.dropWhile_cons, h', Bool.not_false, if_true]
    have h1 := dropWhile_length_le (fun x => !pyIsDigit x) rest
    have h2 := dropWhile_length_le pyIsDigit (rest.dropWhile (fun x => !pyIsDigit x))
    simp only [List.length_cons]
    omega

theorem listifyF_fuel_eq :
    ∀ f1 f2 (s : Str), s.length ≤ f1 → s.length ≤ f2 →
      listifyF f1 s = listifyF f2 s := by
  intro f1
  induction f1 with
  | zero =>
    intro f2 s h1 _
    have : s = [] := by cases s <;> simp_all
    subst this
    cases f2 <;> rfl
  | succ f1 ih =>
    intro f2 s h1 h2
    cases s with
    | nil => cases f2 <;> rfl
    | cons c rest =>
      cases f2 with
      | zero => simp at h2
      | succ g =>
        simp only [listifyF]
        have hlt := peel_length_lt c rest
        simp only [List.length_cons] at h1 h2 hlt
        rw [ih g ((get_digits (get_alphas (c :: rest)).2).2)
          (by omega) (by omega)]

theorem listify_nil : listify [] = [] := rfl

theorem listify_cons (c : Char) (rest : Str) :
    listify (c :: rest) =
      Token.str (get_alphas (c :: rest)).1 ::
        Token.num (get_digits (get_alphas (c :: rest)).2).1 ::
          listify ((get_digits (get_alphas (c :: rest)).2).2) := by
  show listifyF (c :: rest).length (c :: rest) = _
  simp only [List.length_cons, listifyF]
  have hlt := peel_length_lt c rest
  rw [listifyF_fuel_eq rest.length ((get_digits (get_alphas (c :: rest)).2).2).length
    _ (by simp only [List.length_cons] at hlt; omega) (by omega)]
  rfl

theorem listify_alt_aux (n : Nat) :
    ∀ s : Str, s.length ≤ n → AltTokens (listify s) := by
  induction n with
  | zero =>
    intro s h
    have : s = [] := by cases s <;> simp_all
    subst this
    exact AltTokens.nil
  | succ n ih =>
    intro s h
    cases s with
    | nil => exact AltTokens.nil
    | cons c rest =>
      rw [listify_cons]
      refine AltTokens.cons _ _ _ (ih _ ?_)
      have := peel_length_lt c rest
      simp only [List.length_cons] at this h
      omega

theorem listify_alt (s : Str) : AltTokens (listify s) :=
  listify_alt_aux s.length s le_rfl

theorem char_eq_of_toNat_eq {x y : Char} (h : x.toNat = y.toNat) : x = y := by
  have hx := Char.ofNat_toNat x
  have hy := Char.ofNat_toNat y
  rw [← hx, ← hy, h]

theorem dstringcmp_antisym : ∀ a b : Str, dstringcmp b a = -dstringcmp a b := by
  intro a
  induction a with
  | nil =>
    intro b
    cases b with
    | nil => rfl
    | cons c cs =>
      simp only [dstringcmp]
      split_ifs <;> decide
  | cons x xs ih =>
    intro b
    cases b with
    | nil =>
      simp only [dstringcmp]
      split_ifs <;> decide
    | cons y ys =>
      by_cases hxy : x = y
      · subst hxy
        simp only [dstringcmp, if_pos rfl]
        exact ih ys
      · have hyx : ¬(y = x) := fun hh => hxy hh.symm
        by_cases hx : x = '~'
        · have hy : ¬(y = '~') := fun hh => hxy (hx.trans hh.symm)
          have hy' : ¬('~' = y) := fun hh => hy hh.symm
          simp [dstringcmp, hxy, hyx, hx, hy, hy']
        · by_cases hy : y = '~'
          · have hx' : ¬('~' = x) := fun hh => hx hh.symm
            simp [dstringcmp, hxy, hyx, hx, hy, hx']
          · by_cases hax : pyIsAlpha x
            · by_cases hay : pyIsAlpha y
              · rcases Nat.lt_trichotomy x.toNat y.toNat with hlt | heq | hgt
                · simp [dstringcmp, hxy, hyx, hx, hy, hax, hay, hlt,
                    Nat.lt_asymm hlt]
                · exact absurd (char_eq_of_toNat_eq heq) hxy
                · simp [dstringcmp, hxy, hyx, hx, hy, hax, hay, hgt,
                    Nat.lt_asymm hgt]
              · simp [dstringcmp, hxy, hyx, hx, hy, hax, hay]
            · by_cases hay : pyIsAlpha y
              · simp [dstringcmp, hxy, hyx, hx, hy, hax, hay]
              · rcases Nat.lt_trichotomy x.toNat y.toNat with hlt | heq | hgt
                · simp [dstringcmp, hxy, hyx, hx, hy, hax, hay, hlt,
                    Nat.lt_asymm hlt]
                · exact absurd (char_eq_of_toNat_eq heq) hxy
                · simp [dstringcmp, hxy, hyx, hx, hy, hax, hay, hgt,
                    Nat.lt_asymm hgt]

theorem dstringcmp_range : ∀ a b : Str,
    dstringcmp a b = -1 ∨ dstringcmp a b = 0 ∨ dstringcmp a b = 1 := by
  intro a
  induction a with
  | nil =>
    intro b
    cases b with
    | nil => simp [dstringcmp]
    | cons c cs =>
      simp only [dstringcmp]
      split_ifs <;> simp
  | cons x xs ih =>
    intro b
    cases b with
    | nil =>
      simp only [dstringcmp]
      split_ifs <;> simp
    | cons y ys =>
      simp only [dstringcmp]
      split_ifs <;> first | simp | exact ih ys

theorem tokAligned_of_alt : ∀ l1 l2, AltTokens l1 → AltTokens l2 →
    TokAligned l1 l2 := by
  intro l1 l2 h1
  induction h1 generalizing l2 with
  | nil => intro _; exact TokAligned.nilL _
  | cons s n rest _ ih =>
    intro h2
    cases h2 with
    | nil => exact TokAligned.nilR _
    | cons s2 n2 rest2 hrest2 =>
      exact TokAligned.strs _ _ _ _ (TokAligned.nums _ _ _ _ (ih _ hrest2))

theorem cmpTokenLists_ok_of_aligned : ∀ l1 l2, TokAligned l1 l2 →
    ∃ r, cmpTokenLists l1 l2 = .ok r ∧ (r = -1 ∨ r = 0 ∨ r = 1) := by
  intro l1 l2 h
  induction h with
  | nilL l => exact ⟨-1, rfl, by simp⟩
  | nilR l =>
    cases l with
    | nil => exact ⟨-1, rfl, by simp⟩
    | cons t ts =>
      refine ⟨1, ?_, by simp⟩
      cases t <;> rfl
  | strs s1 s2 t1 t2 _ ih =>
    by_cases h : s1 = s2
    · simpa [cmpTokenLists, h] using ih
    · exact ⟨dstringcmp s1 s2, by simp [cmpTokenLists, h], dstringcmp_range s1 s2⟩
  | nums n1 n2 t1 t2 _ ih =>
    by_cases h : n1 = n2
    · simpa [cmpTokenLists, h] using ih
    · by_cases h2 : n2 < n1
      · exact ⟨1, by simp [cmpTokenLists, h, h2], by simp⟩
      · exact ⟨-1, by simp [cmpTokenLists, h, h2], by simp⟩

theorem cmpTokenLists_antisym : ∀ l1 l2, l1 ≠ l2 → ∀ r : Int,
    cmpTokenLists l1 l2 = .ok r → cmpTokenLists l2 l1 = .ok (-r) := by
  intro l1
  induction l1 with
  | nil =>
    intro l2 hne r hr
    cases l2 with
    | nil => exact absurd rfl hne
    | cons t ts =>
      simp only [cmpTokenLists, Except.ok.injEq] at hr
      subst hr
      simp [cmpTokenLists]
  | cons t1h t1t ih =>
    intro l2 hne r hr
    cases l2 with
    | nil =>
      simp only [cmpTokenLists, Except.ok.injEq] at hr
      subst hr
      simp [cmpTokenLists]
    | cons t2h t2t =>
      cases t1h with
      | str s1 =>
        cases t2h with
        | str s2 =>
          by_cases h : s1 = s2
          · subst h
            have hne' : t1t ≠ t2t := fun hh => hne (by rw [hh])
            simp only [cmpTokenLists, if_pos rfl] at hr ⊢
            exact ih t2t hne' r hr
          · have h' : ¬(s2 = s1) := fun hh => h hh.symm
            simp only [cmpTokenLists, if_neg h, if_neg h',
              Except.ok.injEq] at hr ⊢
            rw [← hr, dstringcmp_antisym]
        | num n2 => simp [cmpTokenLists] at hr
      | num n1 =>
        cases t2h with
        | str s2 => simp [cmpTokenLists] at hr
        | num n2 =>
          by_cases h : n1 = n2
          · subst h
            have hne' : t1t ≠ t2t := fun hh => hne (by rw [hh])
            simp only [cmpTokenLists, if_pos rfl] at hr ⊢
            exact ih t2t hne' r hr
          · have h' : ¬(n2 = n1) := fun hh => h hh.symm
            rcases Nat.lt_trichotomy n1 n2 with hlt | heq | hgt
            · have c1 : ¬(n2 < n1) := by omega
              simp only [cmpTokenLists, if_neg h, if_neg h', if_neg c1,
                if_pos hlt, Except.ok.injEq] at hr ⊢
              omega
            · exact absurd heq h
            · have c1 : ¬(n1 < n2) := by omega
              simp only [cmpTokenLists, if_neg h, if_neg h', if_neg c1,
                if_pos hgt, Except.ok.injEq] at hr ⊢
              omega

theorem compare_revision_strings_ok (r1 r2 : Str) :
    ∃ k, compare_revision_strings r1 r2 = .ok k ∧
      (k = -1 ∨ k = 0 ∨ k = 1) := by
  by_cases h : r1 = r2
  · exact ⟨0, by simp [compare_revision_strings, h], by simp⟩
  · by_cases h2 : listify r1 = listify r2
    · exact ⟨0, by simp [compare_revision_strings, h, h2], by simp⟩
    · obtain ⟨r, hr, hrange⟩ := cmpTokenLists_ok_of_aligned _ _
        (tokAligned_of_alt _ _ (listify_alt r1) (listify_alt r2))
      exact ⟨r, by simp [compare_revision_strings, h, h2, hr], hrange⟩

theorem compare_revision_strings_antisym (r1 r2 : Str) (k : Int)
    (h : compare_revision_strings r1 r2 = .ok k) :
    compare_revision_strings r2 r1 = .ok (-k) := by
  by_cases he : r1 = r2
  · rw [he] at h ⊢
    have h0 : compare_revision_strings r2 r2 = .ok 0 := by
      simp [compare_revision_strings]
    rw [h0] at h
    obtain rfl : (0 : Int) = k := by simpa using h
    simpa using h0
  · have he' : ¬(r2 = r1) := fun hh => he hh.symm
    by_cases hl : listify r1 = listify r2
    · have hl' : listify r2 = listify r1 := hl.symm
      simp only [compare_revision_strings, if_neg he, if_neg he'] at h ⊢
      rw [if_pos hl] at h
      rw [if_pos hl']
      obtain rfl : (0 : Int) = k := by simpa using h
      simp
    · have hl' : ¬(listify r2 = listify r1) := fun hh => hl hh.symm
      simp only [compare_revision_strings, if_neg he, if_neg he'] at h ⊢
      rw [if_neg hl] at h
      rw [if_neg hl']
      exact cmpTokenLists_antisym _ _ hl k h

theorem compare_versions_self_eq (v : Str) : compare_versions v v = .ok 0 := by
  simp [compare_versions]

/-- Claim C1: wherever Dpkg.compare_versions returns a value on a pair
of version strings, the value lies in the set containing -1, 0 and 1,
and comparing the swapped pair returns exactly the negated value,
through every branch of the epoch, upstream and revision comparisons,
including the tilde end-of-string branches of dstringcmp and the
longer-list-wins branches of compare_revision_strings. -/
theorem compare_versions_antisym_range (a b : Str) (r : Int)
    (h : compare_versions a b = .ok r) :
    (r = -1 ∨ r = 0 ∨ r = 1) ∧ compare_versions b a = .ok (-r) := by
  by_cases hab : a = b
  · rw [hab] at h ⊢
    rw [compare_versions_self_eq] at h
    obtain rfl : (0 : Int) = r := by simpa using h
    exact ⟨by simp, by simpa using compare_versions_self_eq b⟩
  · have hba : ¬(b = a) := fun hh => hab hh.symm
    cases hsa : split_full_version a with
    | error e => simp [compare_versions, hab, hsa] at h
    | ok ta =>
      obtain ⟨e1, u1, d1⟩ := ta
      cases hsb : split_full_version b with
      | error e => simp [compare_versions, hab, hsa, hsb] at h
      | ok tb =>
        obtain ⟨e2, u2, d2⟩ := tb
        obtain ⟨ur, hur, hurr⟩ := compare_revision_strings_ok u1 u2
        obtain ⟨dr, hdr, hdrr⟩ := compare_revision_strings_ok d1 d2
        have hub := compare_revision_strings_antisym u1 u2 ur hur
        have hdb := compare_revision_strings_antisym d1 d2 dr hdr
        simp only [compare_versions, if_neg hab, if_neg hba, hsa, hsb,
          hur, hdr, hub, hdb] at h ⊢
        rcases Int.lt_trichotomy e1 e2 with hlt | heq | hgt
        · have hnlt : ¬(e2 < e1) := by omega
          rw [if_pos hlt] at h
          rw [if_neg hnlt, if_pos hlt]
          obtain rfl : (-1 : Int) = r := by simpa using h
          exact ⟨by norm_num, by norm_num⟩
        · obtain rfl := heq
          have hirr : ¬(e1 < e1) := by omega
          rw [if_neg hirr, if_neg hirr] at h
          rw [if_neg hirr, if_neg hirr]
          by_cases hz : ur = 0
          · subst hz
            simp only [neg_zero] at h ⊢
            rw [if_neg (by simp)] at h
            rw [if_neg (by simp)]
            by_cases hdz : dr = 0
            · subst hdz
              simp only [neg_zero] at h ⊢
              rw [if_neg (by simp)] at h
              rw [if_neg (by simp)]
              obtain rfl : (0 : Int) = r := by simpa using h
              exact ⟨by simp, by simp⟩
            · rw [if_pos hdz] at h
              rw [if_pos (by omega : ¬(-dr : Int) = 0)]
              obtain rfl : dr = r := by simpa using h
              exact ⟨hdrr, rfl⟩
          · rw [if_pos hz] at h
            rw [if_pos (by omega : ¬(-ur : Int) = 0)]
            obtain rfl : ur = r := by simpa using h
            exact ⟨hurr, rfl⟩
        · have hnlt : ¬(e1 < e2) := by omega
          rw [if_neg hnlt, if_pos hgt] at h
          rw [if_pos hgt]
          obtain rfl : (1 : Int) = r := by simpa using h
          exact ⟨by norm_num, by norm_num⟩

theorem findIdx_colon_append (pre post : Str) (hpre : ':' ∉ pre) :
    (pre ++ ':' :: post).findIdx? (· = ':') = some pre.length := by
  induction pre with
  | nil => simp [List.findIdx?_cons]
  | cons c cs ih =>
    have hc : ¬(c = ':') := fun hh => hpre (by simp [hh])
    have hcs : ':' ∉ cs := fun hh => hpre (List.mem_cons_of_mem _ hh)
    simp [List.findIdx?_cons, hc, ih hcs]

theorem listifyPiecesF_fuel_eq :
    ∀ f1 f2 (s : Str), s.length ≤ f1 → s.length ≤ f2 →
      listifyPiecesF f1 s = listifyPiecesF f2 s := by
  intro f1
  induction f1 with
  | zero =>
    intro f2 s h1 _
    have : s = [] := by cases s <;> simp_all
    subst this
    cases f2 <;> rfl
  | succ f1 ih =>
    intro f2 s h1 h2
    cases s with
    | nil => cases f2 <;> rfl
    | cons c rest =>
      cases f2 with
      | zero => simp at h2
      | succ g =>
        simp only [listifyPiecesF]
        have hlt := peel_length_lt c rest
        simp only [List.length_cons] at h1 h2 hlt
        rw [ih g ((get_digits (get_alphas (c :: rest)).2).2)
          (by omega) (by omega)]

theorem listifyPieces_cons (c : Char) (rest : Str) :
    listifyPieces (c :: rest) =
      ((get_alphas (c :: rest)).1,
        ((get_alphas (c :: rest)).2).takeWhile pyIsDigit) ::
        listifyPieces ((get_digits (get_alphas (c :: rest)).2).2) := by
  show listifyPiecesF (c :: rest).length (c :: rest) = _
  simp only [List.length_cons, listifyPiecesF]
  have hlt := peel_length_lt c rest
  rw [listifyPiecesF_fuel_eq rest.length
    ((get_digits (get_alphas (c :: rest)).2).2).length
    _ (by simp only [List.length_cons] at hlt; omega) (by omega)]
  rfl

theorem listify_pieces_aux (n : Nat) :
    ∀ s : Str, s.length ≤ n →
      piecesJoin (listifyPieces s) = s ∧
        piecesTokens (listifyPieces s) = listify s := by
  induction n with
  | zero =>
    intro s h
    have : s = [] := by cases s <;> simp_all
    subst this
    exact ⟨rfl, rfl⟩
  | succ n ih =>
    intro s h
    cases s with
    | nil => exact ⟨rfl, rfl⟩
    | cons c rest =>
      have hlt := peel_length_lt c rest
      simp only [List.length_cons] at h hlt
      obtain ⟨ihj, iht⟩ := ih ((get_digits (get_alphas (c :: rest)).2).2)
        (by omega)
      constructor
      · rw [listifyPieces_cons]
        simp only [piecesJoin, List.map_cons, List.flatten_cons] at ihj ⊢
        rw [ihj]
        have h2 : ((get_alphas (c :: rest)).2).takeWhile pyIsDigit ++
            (get_digits (get_alphas (c :: rest)).2).2 =
            (get_alphas (c :: rest)).2 := by
          simp only [get_digits]
          exact List.takeWhile_append_dropWhile pyIsDigit _
        have h1 : (get_alphas (c :: rest)).1 ++ (get_alphas (c :: rest)).2 =
            c :: rest := by
          simp only [get_alphas]
          exact List.takeWhile_append_dropWhile _ _
        rw [List.append_assoc, h2, h1]
      · rw [listifyPieces_cons, listify_cons]
        simp only [piecesTokens, List.foldr_cons] at iht ⊢
        rw [iht]
        rfl

theorem natDigitsAux_all_digits :
    ∀ fuel n c, c ∈ natDigitsAux fuel n → ('0' ≤ c ∧ c ≤ '9') := by
  intro fuel
  induction fuel with
  | zero => intro n c hc; simp [natDigitsAux] at hc
  | succ fuel ih =>
    intro n c hc
    simp only [natDigitsAux] at hc
    by_cases h : n < 10
    · rw [if_pos h] at hc
      simp only [List.mem_singleton] at hc
      subst hc
      unfold digitChar
      interval_cases n <;> exact ⟨by decide, by decide⟩
    · rw [if_neg h] at hc
      rcases List.mem_append.mp hc with hc1 | hc2
      · exact ih (n / 10) c hc1
      · simp only [List.mem_singleton] at hc2
        subst hc2
        have h10 : n % 10 < 10 := Nat.mod_lt _ (by omega)
        unfold digitChar
        interval_cases hm : (n % 10) <;> exact ⟨by decide, by decide⟩

theorem natToChars_no_newline (n : Nat) : '\n' ∉ natToChars n := by
  intro hc
  have := natDigitsAux_all_digits (n + 1) n '\n' hc
  revert this
  decide

theorem splitOnChar_ne_nil (sep : Char) : ∀ s : Str, splitOnChar sep s ≠ [] := by
  intro s
  cases s with
  | nil => simp [splitOnChar]
  | cons c rest =>
    by_cases h : c = sep
    · simp [splitOnChar, h]
    · simp only [splitOnChar, if_neg h]
      cases hr : splitOnChar sep rest <;> simp

theorem splitOnChar_no_sep (sep : Char) :
    ∀ w : Str, (∀ c ∈ w, c ≠ sep) → splitOnChar sep w = [w] := by
  intro w
  induction w with
  | nil => intro _; rfl
  | cons c rest ih =>
    intro hw
    have hc : ¬(c = sep) := hw c (by simp)
    have hrest : ∀ c ∈ rest, c ≠ sep := fun x hx => hw x (by simp [hx])
    simp only [splitOnChar, if_neg hc, ih hrest]

theorem splitOnChar_cons_eq (sep c : Char) (rest : Str) :
    splitOnChar sep (c :: rest) =
      if c = sep then [] :: splitOnChar sep rest
      else
        match splitOnChar sep rest with
        | [] => [[c]]
        | p :: ps => (c :: p) :: ps := rfl

theorem splitOnChar_append (sep : Char) :
    ∀ u w : Str, (∀ c ∈ w, c ≠ sep) →
      splitOnChar sep (u ++ sep :: w) = splitOnChar sep u ++ [w] := by
  intro u
  induction u with
  | nil =>
    intro w hw
    rw [List.nil_append, splitOnChar_cons_eq, if_pos rfl,
      splitOnChar_no_sep sep w hw]
    rfl
  | cons c u' ih =>
    intro w hw
    by_cases h : c = sep
    · subst h
      rw [List.cons_append, splitOnChar_cons_eq, if_pos rfl, ih w hw,
        splitOnChar_cons_eq, if_pos rfl]
      simp
    · rw [List.cons_append, splitOnChar_cons_eq, if_neg h, ih w hw,
        splitOnChar_cons_eq, if_neg h]
      cases hu : splitOnChar sep u' with
      | nil => exact absurd hu (splitOnChar_ne_nil sep u')
      | cons p ps => simp

theorem selfLine_no_newline (digestOf : Str → Str) (size : Nat) (base t : Str)
    (hd : '\n' ∉ digestOf t) (hb : '\n' ∉ base) :
    ∀ c ∈ (' ' :: (digestOf t ++ ' ' :: natToChars size ++ ' ' :: base)),
      c ≠ '\n' := by
  intro c hc hh
  subst hh
  simp only [List.mem_cons, List.mem_append] at hc
  have h1 := natToChars_no_newline size
  have hsp : ¬(('\n' : Char) = ' ') := by decide
  tauto

theorem selfLine_lines (digestOf : Str → Str) (size : Nat) (base t : Str)
    (hd : '\n' ∉ digestOf t) (hb : '\n' ∉ base) (v : Str) :
    splitOnChar '\n' (v ++ selfLine digestOf size base t) =
      splitOnChar '\n' v ++
        [' ' :: (digestOf t ++ ' ' :: natToChars size ++ ' ' :: base)] := by
  have h := splitOnChar_append '\n' v
    (' ' :: (digestOf t ++ ' ' :: natToChars size ++ ' ' :: base))
    (selfLine_no_newline digestOf size base t hd hb)
  simpa [selfLine] using h

theorem internalizeEntry_spec (base : Str) (size : Nat) (digestOf : Str → Str)
    (k v : Str) (kv' : Str × Str)
    (h : internalizeEntry base size digestOf (k, v) = .ok kv') :
    kv'.1 = k ∧
    (keyHashtype k = none → kv' = (k, v)) ∧
    (∀ t, keyHashtype k = some (.ok t) →
      ∃ fs, filesOf v = .ok fs ∧
        (base ∈ fs → kv' = (k, v)) ∧
        (base ∉ fs → kv'.2 = v ++ selfLine digestOf size base t)) := by
  cases hk : keyHashtype k with
  | none =>
    simp only [internalizeEntry, hk, Except.ok.injEq] at h
    subst h
    exact ⟨rfl, fun _ => rfl, fun t ht => nomatch ht⟩
  | some res =>
    cases res with
    | error e => simp [internalizeEntry, hk] at h
    | ok t0 =>
      cases hf : filesOf v with
      | error e => simp [internalizeEntry, hk, hf] at h
      | ok fs =>
        by_cases hmem : base ∈ fs
        · simp only [internalizeEntry, hk, hf, if_pos hmem,
            Except.ok.injEq] at h
          subst h
          refine ⟨rfl, fun hn => Option.noConfusion hn, fun t ht => ?_⟩
          obtain rfl : t0 = t := by simpa using ht
          exact ⟨fs, rfl, fun _ => rfl, fun hnm => absurd hmem hnm⟩
        · simp only [internalizeEntry, hk, hf, if_neg hmem,
            Except.ok.injEq] at h
          subst h
          refine ⟨rfl, fun hn => Option.noConfusion hn, fun t ht => ?_⟩
          obtain rfl : t0 = t := by simpa using ht
          exact ⟨fs, rfl, fun hm => absurd hm hmem, fun _ => rfl⟩

theorem internalize_message_entries (base : Str) (size : Nat)
    (digestOf : Str → Str) :
    ∀ (msg msg' : List (Str × Str)),
      internalize_message base size digestOf msg = .ok msg' →
      msg'.length = msg.length ∧
        ∀ (i : Nat) (h1 : i < msg.length) (h2 : i < msg'.length),
          internalizeEntry base size digestOf (msg.get ⟨i, h1⟩) =
            .ok (msg'.get ⟨i, h2⟩) := by
  intro msg
  induction msg with
  | nil =>
    intro msg' h
    simp only [internalize_message, Except.ok.injEq] at h
    subst h
    exact ⟨rfl, fun i h1 _ => by simp at h1⟩
  | cons kv rest ih =>
    intro msg' h
    cases he : internalizeEntry base size digestOf kv with
    | error e => simp [internalize_message, he] at h
    | ok kv' =>
      cases hr : internalize_message base size digestOf rest with
      | error e => simp [internalize_message, he, hr] at h
      | ok rest' =>
        simp only [internalize_message, he, hr, Except.ok.injEq] at h
        subst h
        obtain ⟨hlen, hget⟩ := ih rest' hr
        refine ⟨by simp [hlen], ?_⟩
        intro i h1 h2
        cases i with
        | zero => simpa using he
        | succ j =>
          simp only [List.length_cons] at h1 h2
          exact hget j (by omega) (by omega)

theorem checkRequiredLoop_ignore (keys : List Str) :
    ∀ l, checkRequiredLoop true keys l = .ok () := by
  intro l
  induction l with
  | nil => rfl
  | cons req rest ih =>
    by_cases h : req ∈ keys.map pyLower <;> simp [checkRequiredLoop, h, ih]

theorem checkRequiredLoop_strict (keys : List Str) :
    ∀ l, (checkRequiredLoop false keys l = .ok () ↔
      ∀ req ∈ l, req ∈ keys.map pyLower) := by
  intro l
  induction l with
  | nil => simp [checkRequiredLoop]
  | cons req rest ih =>
    by_cases h : req ∈ keys.map pyLower
    · simp only [checkRequiredLoop, if_pos h]
      rw [ih]
      constructor
      · intro hall r hr
        rcases List.mem_cons.mp hr with rfl | hr2
        · exact h
        · exact hall r hr2
      · intro hall r hr
        exact hall r (List.mem_cons_of_mem _ hr)
    · simp only [checkRequiredLoop, if_neg h, Bool.false_eq_true, if_false]
      constructor
      · intro hc
        exact Except.noConfusion hc
      · intro hall
        exact absurd (hall req (by simp)) h

theorem checkRequiredLoop_error (keys : List Str) :
    ∀ l req, checkRequiredLoop false keys l = .error req →
      req ∈ l ∧ req ∉ keys.map pyLower := by
  intro l
  induction l with
  | nil => intro req h; exact Except.noConfusion h
  | cons r rest ih =>
    intro req h
    by_cases hr : r ∈ keys.map pyLower
    · simp only [checkRequiredLoop, if_pos hr] at h
      obtain ⟨h1, h2⟩ := ih req h
      exact ⟨by simp [h1], h2⟩
    · simp only [checkRequiredLoop, if_neg hr, Bool.false_eq_true,
        if_false, Except.error.injEq] at h
      subst h
      exact ⟨by simp, hr⟩

theorem missing_filter_eq (files : List SourceRecord) :
    (files.filter (fun x => !x.2.2)).map (fun x => x.1) =
      missing_files files := by
  unfold missing_files
  congr 1
  apply List.filter_congr
  intro x _
  cases h : x.2.2 <;> simp [h]

end Pydpkg

namespace Pydpkg

/-! The claim theorems, with their witnesses and counterexamples. -/

/-- Claim C1 witness: the theorem applied at the concrete pair of
version strings 1.0 and 2.0. -/
theorem compare_versions_antisym_range_witness :
    ((-1 : Int) = -1 ∨ (-1 : Int) = 0 ∨ (-1 : Int) = 1) ∧
      compare_versions "2.0".data "1.0".data = .ok (-(-1)) :=
  compare_versions_antisym_range "1.0".data "2.0".data (-1) (by decide)

/-- Claim C2 counterexample: the prefix before the first colon of the
version string -1:1.0 does not parse as a non-negative integer, yet
Dpkg.get_epoch does not raise: Python int() accepts a sign, so the call
returns the negative epoch -1 paired with the remainder. -/
theorem get_epoch_negative_epoch :
    get_epoch ("-1:1.0".data) = .ok (-1, "1.0".data) ∧ (-1 : Int) < 0 := by
  exact ⟨by decide, by decide⟩

/-- Claim C2 (amended): a version string without a colon yields epoch 0
with the string unchanged; a version string of the form pre ++ colon ++
post (first colon) yields the Python int() value of pre paired with
post when pre parses as a Python integer literal, which may carry a
sign or surrounding whitespace and hence may be negative, and raises
DpkgVersionError exactly when pre does not so parse. -/
theorem get_epoch_spec (v : Str) :
    ((':' ∉ v) → get_epoch v = .ok (0, v)) ∧
    (∀ pre post : Str, v = pre ++ ':' :: post → ':' ∉ pre →
      get_epoch v =
        (match pyint pre with
          | some i => Except.ok (i, post)
          | none => Except.error ())) := by
  constructor
  · intro h
    have hidx : v.findIdx? (· = ':') = none := by
      rw [List.findIdx?_eq_none_iff]
      intro x hx
      simp only [decide_eq_false_iff_not]
      exact fun hh => h (hh ▸ hx)
    simp [get_epoch, hidx]
  · intro pre post hv hpre
    subst hv
    simp only [get_epoch, findIdx_colon_append pre post hpre,
      List.take_left]
    have hdrop : (pre ++ ':' :: post).drop (pre.length + 1) = post := by
      simp [List.drop_append]
    rw [hdrop]
    cases pyint pre <;> rfl

/-- Claim C2 witness: the amended theorem applied to the version
string 1:2. -/
theorem get_epoch_spec_witness :
    get_epoch "1:2".data =
      (match pyint "1".data with
        | some i => Except.ok (i, "2".data)
        | none => Except.error ()) :=
  (get_epoch_spec ("1:2".data)).2 "1".data "2".data (by decide) (by decide)

/-- Claim C3 counterexample: rendering the tokens of listify back to
text with digit tokens as decimal text does not reconstruct the input:
the string consisting of the letter a tokenizes with a padded trailing
digit token 0, which renders back as a0. -/
theorem listify_render_not_identity :
    claimRenderTokens (listify "a".data) = "a0".data ∧
      ("a0".data : Str) ≠ "a".data := by
  exact ⟨by decide, by decide⟩

/-- Claim C3 (amended): concatenating in order the original substrings
the tokens of Dpkg.listify were peeled from, each alpha run and each
digit run taken verbatim, reconstructs the input exactly, and the
tokens listify returns are precisely those peeled substrings with each
digit run replaced by its numeric value.  (Rendering a digit token back
to decimal text instead does not reconstruct inputs whose digit runs
have leading zeros or are empty, per the counterexample.) -/
theorem listify_pieces_roundtrip (s : Str) :
    piecesJoin (listifyPieces s) = s ∧
      piecesTokens (listifyPieces s) = listify s :=
  listify_pieces_aux s.length s le_rfl

/-- Claim C4: sorting the five sample segments with Dpkg.dstringcmp as
comparator yields exactly the documented tilde order, pairwise
comparisons of the sorted list are strictly increasing in both
directions, and each segment compares equal to itself. -/
theorem dstringcmp_tilde_order :
    sortBy (fun a b => dstringcmp a b ≤ 0)
        ["a".data, "".data, "~".data, "~~a".data, "~~".data] =
      ["~~".data, "~~a".data, "~".data, "".data, "a".data] ∧
    List.Pairwise (fun a b => dstringcmp a b = -1 ∧ dstringcmp b a = 1)
      ["~~".data, "~~a".data, "~".data, "".data, "a".data] ∧
    ∀ x ∈ (["~~".data, "~~a".data, "~".data, "".data, "a".data] : List Str),
      dstringcmp x x = 0 := by
  refine ⟨by decide, by decide, by decide⟩

/-- Claim C5: an omitted epoch compares as epoch 0 and an omitted
debian revision compares as revision 0, including a revision written
with two zero digits. -/
theorem compare_versions_omitted_defaults :
    compare_versions "1.0".data "0:1.0".data = .ok 0 ∧
    compare_versions "1.0".data "1.0-0".data = .ok 0 ∧
    compare_versions "1.0".data "1.0-00".data = .ok 0 := by
  refine ⟨by decide, by decide, by decide⟩

/-- Claim C6: comparing any version string with itself returns 0 and
raises no error, by the equality fast path taken before any epoch
parsing or decomposition. -/
theorem compare_versions_refl (v : Str) : compare_versions v v = .ok 0 := by
  simp [compare_versions]

/-- Claim C7: Dsc.validate raises DscMissingFileError carrying exactly
the resolved paths of the declared source files absent from disk
whenever at least one is absent, regardless of the checksum table;
otherwise it raises DscBadChecksumsError carrying the correction table
whenever at least one recomputed digest disagrees; otherwise it
returns normally. -/
theorem validate_spec (d : DscState) :
    (all_files_present d.sourceFiles = false →
      validate d = .error (.missingFiles (missing_files d.sourceFiles))) ∧
    (all_files_present d.sourceFiles = true → validate_checksums d ≠ [] →
      validate d = .error (.badChecksums (validate_checksums d))) ∧
    (all_files_present d.sourceFiles = true → validate_checksums d = [] →
      validate d = .ok ()) := by
  refine ⟨fun hm => ?_, fun hp hc => ?_, fun hp hc => ?_⟩
  · simp [validate, hm, missing_filter_eq]
  · simp [validate, hp, all_checksums_correct, hc]
  · simp [validate, hp, all_checksums_correct, hc]

/-- A Dsc state with one missing file, one present file and a digest
mismatch on the present file, exercising the precedence of the
missing-file error. -/
def dscWitnessState : DscState :=
  { sourceFiles := [("f1".data, 1, false), ("f2".data, 2, true)],
    checksums := [("md5".data, "f2".data, "aa".data)],
    actualDigest := fun _ _ => "bb".data }

/-- Claim C7 witness: on the sample state, the missing-file error wins
over the (also failing) checksum check and carries exactly the absent
path. -/
theorem validate_spec_witness :
    validate dscWitnessState = .error (.missingFiles ["f1".data]) ∧
      validate_checksums dscWitnessState ≠ [] := by
  have h := (validate_spec dscWitnessState).1 (by decide)
  rw [h]
  exact ⟨by decide, by decide⟩

/-- Claim C8: whenever Dsc._internalize_message succeeds, every header
keeps its key and order; a header that is not a file list keeps its
value; a Files or Checksums header whose file list already names the
document's basename keeps its value; and one whose list omits the
basename gets exactly one line appended, holding the freshly computed
digest of the document under that header's algorithm, the document's
measured size, and its basename. -/
theorem internalize_message_spec (base : Str) (size : Nat)
    (digestOf : Str → Str) (msg msg' : List (Str × Str))
    (h : internalize_message base size digestOf msg = .ok msg')
    (hd : ∀ t, '\n' ∉ digestOf t) (hb : '\n' ∉ base) :
    msg'.length = msg.length ∧
    ∀ (i : Nat) (h1 : i < msg.length) (h2 : i < msg'.length),
      (msg'.get ⟨i, h2⟩).1 = (msg.get ⟨i, h1⟩).1 ∧
      (keyHashtype (msg.get ⟨i, h1⟩).1 = none →
        msg'.get ⟨i, h2⟩ = msg.get ⟨i, h1⟩) ∧
      (∀ t, keyHashtype (msg.get ⟨i, h1⟩).1 = some (.ok t) →
        ∃ fs, filesOf (msg.get ⟨i, h1⟩).2 = .ok fs ∧
          (base ∈ fs → msg'.get ⟨i, h2⟩ = msg.get ⟨i, h1⟩) ∧
          (base ∉ fs →
            (msg'.get ⟨i, h2⟩).2 =
              (msg.get ⟨i, h1⟩).2 ++ selfLine digestOf size base t ∧
            splitOnChar '\n' (msg'.get ⟨i, h2⟩).2 =
              splitOnChar '\n' (msg.get ⟨i, h1⟩).2 ++
                [' ' :: (digestOf t ++ ' ' :: natToChars size ++
                  ' ' :: base)])) := by
  obtain ⟨hlen, hget⟩ := internalize_message_entries base size digestOf msg msg' h
  refine ⟨hlen, ?_⟩
  intro i h1 h2
  rcases hkv : msg.get ⟨i, h1⟩ with ⟨k, v⟩
  have hentry := hget i h1 h2
  rw [hkv] at hentry
  obtain ⟨hk1, hk2, hk3⟩ :=
    internalizeEntry_spec base size digestOf k v _ hentry
  refine ⟨hk1, fun hn => hk2 hn, fun t ht => ?_⟩
  obtain ⟨fs, hfs, hin, hout⟩ := hk3 t ht
  refine ⟨fs, hfs, fun hm => hin hm, fun hnm => ?_⟩
  refine ⟨hout hnm, ?_⟩
  rw [hout hnm]
  exact selfLine_lines digestOf size base t (hd t) hb v

/-- The digest collaborator of the C8 witness. -/
def dscWitnessDigest : Str → Str :=
  fun _ => "abc".data

/-- The concrete message of the C8 witness: one Files header that does
not list the document's basename. -/
def dscWitnessMsg : List (Str × Str) :=
  [("Files".data, "d1 5 a.tar".data)]

/-- The internalized form of the C8 witness message. -/
def dscWitnessMsgOut : List (Str × Str) :=
  [("Files".data,
    "d1 5 a.tar".data ++
      selfLine dscWitnessDigest 3 "x.dsc".data "md5".data)]

/-- Claim C8 witness: the theorem applied to the sample message, whose
Files header gains exactly the one synthesized line. -/
theorem internalize_message_spec_witness :
    (dscWitnessMsgOut.get ⟨0, by decide⟩).2 =
      (dscWitnessMsg.get ⟨0, by decide⟩).2 ++
        selfLine dscWitnessDigest 3 "x.dsc".data "md5".data ∧
    splitOnChar '\n' (dscWitnessMsgOut.get ⟨0, by decide⟩).2 =
      splitOnChar '\n' (dscWitnessMsg.get ⟨0, by decide⟩).2 ++
        [' ' :: (dscWitnessDigest "md5".data ++ ' ' :: natToChars 3 ++
          ' ' :: "x.dsc".data)] := by
  have h := internalize_message_spec "x.dsc".data 3 dscWitnessDigest
    dscWitnessMsg dscWitnessMsgOut (by decide)
    (fun t => by show ('\n' ∉ ("abc".data : Str)); decide) (by decide)
  obtain ⟨-, hi⟩ := h
  obtain ⟨-, -, h3⟩ := hi 0 (by decide) (by decide)
  obtain ⟨fs, hfs, -, hout⟩ := h3 "md5".data (by decide)
  have hfseq : fs = ["a.tar".data] := by
    have hconc : filesOf (dscWitnessMsg.get ⟨0, by decide⟩).2 =
        .ok ["a.tar".data] := by decide
    rw [hconc] at hfs
    simpa using hfs.symm
  exact hout (by rw [hfseq]; decide)

/-- Claim C9: the required-header check of Dpkg._process_dpkg_file
always succeeds in the lenient mode, and in the strict mode succeeds
exactly when every required header name occurs, case-insensitively,
among the parsed header names; a strict failure carries a required
header that is absent.  The `ignore_missing` flag is consulted nowhere
else in the source. -/
theorem check_required_headers_spec (keys : List Str) :
    check_required_headers true keys = .ok () ∧
    (check_required_headers false keys = .ok () ↔
      ∀ req ∈ REQUIRED_HEADERS, req ∈ keys.map pyLower) ∧
    (∀ req, check_required_headers false keys = .error req →
      req ∈ REQUIRED_HEADERS ∧ req ∉ keys.map pyLower) :=
  ⟨checkRequiredLoop_ignore keys _, checkRequiredLoop_strict keys _,
    fun req h => checkRequiredLoop_error keys _ req h⟩

/-- Claim C9 witness: the theorem applied to a concrete header list
missing the architecture header: lenient mode succeeds, strict mode
does not. -/
theorem check_required_headers_spec_witness :
    check_required_headers true ["Package".data, "Version".data] = .ok () ∧
    ¬(check_required_headers false ["Package".data, "Version".data] =
      .ok ()) := by
  refine ⟨(check_required_headers_spec _).1, fun hok => ?_⟩
  have h := (check_required_headers_spec
    ["Package".data, "Version".data]).2.1.mp hok
  exact absurd (h "architecture".data (by decide)) (by decide)

/-- Claim C10: for the memoized source-file records of a Dsc instance,
Dsc.all_files_present is true exactly when Dsc.missing_files is empty:
both are derived from the same per-file records and can never
disagree. -/
theorem all_files_present_iff_missing (files : List SourceRecord) :
    all_files_present files = true ↔ missing_files files = [] := by
  simp only [all_files_present, missing_files, List.all_eq_true,
    List.map_eq_nil_iff, List.filter_eq_nil_iff]
  constructor
  · intro h x hx
    simp [h x hx]
  · intro h x hx
    have hfx := h x hx
    simp only [decide_eq_true_eq] at hfx
    cases hb : x.2.2
    · exact absurd hb hfx
    · rfl

/-- Claim C10 witness: the equivalence at a concrete record list with
one absent file. -/
theorem all_files_present_iff_missing_witness :
    (all_files_present [("p".data, (3 : Int), false)] = true ↔
      missing_files [("p".data, (3 : Int), false)] = []) ∧
    all_files_present [("p".data, (3 : Int), false)] = false :=
  ⟨all_files_present_iff_missing [("p".data, (3 : Int), false)], by decide⟩

end Pydpkg
